import Mathlib

/-!
Verification of the quantum-simulation core of the `quantum` repository
(QDS.py, QCTS.py, QRNG.py).

All amplitudes that the programs ever produce lie in the ring ℚ(√2)
(rationals adjoined √2): the gates only add, subtract and scale by 1/√2.
We therefore embed the floating-point amplitude arithmetic of the source
exactly, as the computable ring `Qrt2` of numbers `a + b·√2` with
rational `a`, `b`.  Equalities proved over `Qrt2` are exact, so every
"within tolerance 1e-9" clause of the specification is implied.
-/

/-- A number of the form `a + b·√2` with `a b : ℚ`.  This is the exact
scalar ring in which all amplitudes of the simulated circuits live. -/
@[ext]
structure Qrt2 where
  a : ℚ
  b : ℚ
  deriving DecidableEq

namespace Qrt2

instance : Zero Qrt2 := ⟨⟨0, 0⟩⟩

instance : One Qrt2 := ⟨⟨1, 0⟩⟩

instance : Add Qrt2 := ⟨fun x y => ⟨x.a + y.a, x.b + y.b⟩⟩

instance : Neg Qrt2 := ⟨fun x => ⟨-x.a, -x.b⟩⟩

/-- `(a + b√2)(c + d√2) = (ac + 2bd) + (ad + bc)√2`. -/
instance : Mul Qrt2 := ⟨fun x y => ⟨x.a * y.a + 2 * (x.b * y.b), x.a * y.b + x.b * y.a⟩⟩

@[simp] theorem zero_a : (0 : Qrt2).a = 0 := rfl

@[simp] theorem zero_b : (0 : Qrt2).b = 0 := rfl

@[simp] theorem one_a : (1 : Qrt2).a = 1 := rfl

@[simp] theorem one_b : (1 : Qrt2).b = 0 := rfl

@[simp] theorem add_a (x y : Qrt2) : (x + y).a = x.a + y.a := rfl

@[simp] theorem add_b (x y : Qrt2) : (x + y).b = x.b + y.b := rfl

@[simp] theorem neg_a (x : Qrt2) : (-x).a = -x.a := rfl

@[simp] theorem neg_b (x : Qrt2) : (-x).b = -x.b := rfl

@[simp] theorem mul_a (x y : Qrt2) : (x * y).a = x.a * y.a + 2 * (x.b * y.b) := rfl

@[simp] theorem mul_b (x y : Qrt2) : (x * y).b = x.a * y.b + x.b * y.a := rfl

instance addCommGroup : AddCommGroup Qrt2 := by
  refine
    { add := (· + ·)
      zero := (0 : Qrt2)
      neg := Neg.neg
      sub := fun x y => x + -y
      nsmul := nsmulRec
      zsmul := zsmulRec
      add_assoc := ?_
      zero_add := ?_
      add_zero := ?_
      neg_add_cancel := ?_
      add_comm := ?_ } <;>
    intros <;> ext <;> simp <;> ring

@[simp] theorem sub_a (x y : Qrt2) : (x - y).a = x.a - y.a := by
  show (x + -y).a = _; simp; ring

@[simp] theorem sub_b (x y : Qrt2) : (x - y).b = x.b - y.b := by
  show (x + -y).b = _; simp; ring

instance commRing : CommRing Qrt2 := by
  refine
    { Qrt2.addCommGroup with
      mul := (· * ·)
      one := (1 : Qrt2)
      npow := npowRec
      left_distrib := ?_
      right_distrib := ?_
      zero_mul := ?_
      mul_zero := ?_
      mul_assoc := ?_
      one_mul := ?_
      mul_one := ?_
      mul_comm := ?_ } <;>
    intros <;> ext <;> simp <;> ring

/-- The representative of `√2`. -/
def rootTwo : Qrt2 := ⟨0, 1⟩

/-- The representative of `1/√2 = (√2)/2`, the Hadamard scaling factor. -/
def invSqrt2 : Qrt2 := ⟨0, 1/2⟩

theorem rootTwo_sq : rootTwo * rootTwo = 1 + 1 := by
  ext <;> simp [rootTwo] <;> norm_num

theorem invSqrt2_mul_rootTwo : invSqrt2 * rootTwo = 1 := by
  ext <;> simp [invSqrt2, rootTwo] <;> norm_num

/-- `(1/√2)² + (1/√2)² = 1`: the two halves of the Hadamard weight. -/
theorem invSqrt2_sq_add_sq : invSqrt2 * invSqrt2 + invSqrt2 * invSqrt2 = 1 := by
  ext <;> simp [invSqrt2] <;> norm_num

/-- The algebraic heart of Hadamard norm preservation:
`((a+b)/√2)² + ((a−b)/√2)² = a² + b²`. -/
theorem hadamard_pair_identity (x y : Qrt2) :
    ((x + y) * invSqrt2) * ((x + y) * invSqrt2) +
      ((x - y) * invSqrt2) * ((x - y) * invSqrt2) = x * x + y * y := by
  have h : (x * x + y * y) * (invSqrt2 * invSqrt2 + invSqrt2 * invSqrt2) = x * x + y * y := by
    rw [invSqrt2_sq_add_sq, mul_one]
  calc ((x + y) * invSqrt2) * ((x + y) * invSqrt2) +
        ((x - y) * invSqrt2) * ((x - y) * invSqrt2)
      = (x * x + y * y) * (invSqrt2 * invSqrt2 + invSqrt2 * invSqrt2) := by ring
    _ = x * x + y * y := h

/-- Doubling is injective on `Qrt2` (characteristic zero on components). -/
theorem add_self_inj {x y : Qrt2} (h : x + x = y + y) : x = y := by
  have ha : x.a + x.a = y.a + y.a := by
    have := congrArg Qrt2.a h; simpa using this
  have hb : x.b + x.b = y.b + y.b := by
    have := congrArg Qrt2.b h; simpa using this
  ext <;> linarith

end Qrt2

/-!
The generalized simulation core.  The source hard-codes 2-qubit special
cases (QDS.py, `simulate_quantum_circuit`) and delegates the general case
to the external qiskit `Statevector`; the specification describes the
generalized core (sections 4 and 6) as the contract.  The definitions
below are therefore modelled from the spec where the repository has no
general implementation, and qubit `q` of basis index `i` is bit `q` of
`i` (`Nat.testBit`), matching the source's little-endian convention.
-/

/-- Modelled from the spec: the Amplitude Vector over `n` qubits (spec
section 3), indexed by the `2^n` basis states; missing from `src/`, which
hard-codes length-4 vectors. -/
def StateVec (n : ℕ) : Type := Fin (2 ^ n) → Qrt2

/-- The error taxonomy of spec section 7. -/
inductive SimError where
  | InvalidQubitCount
  | QubitIndexOutOfRange
  | DegenerateDistribution
  deriving DecidableEq

/-- The basis index obtained by flipping bit `q`, kept inside `Fin (2^n)`
by reduction mod `2^n` (a no-op when `q < n`). -/
def flipBit (n q : ℕ) (i : Fin (2 ^ n)) : Fin (2 ^ n) :=
  ⟨(i.val ^^^ 2 ^ q) % 2 ^ n, Nat.mod_lt _ (Nat.two_pow_pos n)⟩

/-- Modelled from the spec: a tagged gate, one of
`Hadamard(qubit)`, `PauliX(qubit)`, `ControlledX(control, target)`
(spec section 3); missing from `src/`, which dispatches on gate-name
strings. -/
inductive Gate where
  | hadamard (q : ℕ)
  | pauliX (q : ℕ)
  | controlledX (c t : ℕ)
  deriving DecidableEq

/-- Modelled from the spec: the Hadamard transform restricted to qubit
`q` — for each pair of basis states differing only in bit `q`, the
bit-`q`=0 state gets `(a0 + a1)/√2` and the bit-`q`=1 state gets
`(a0 − a1)/√2` (spec section 4.2). -/
def hGateApp (n q : ℕ) (v : StateVec n) : StateVec n := fun i =>
  if i.val.testBit q then (v (flipBit n q i) - v i) * Qrt2.invSqrt2
  else (v i + v (flipBit n q i)) * Qrt2.invSqrt2

/-- Modelled from the spec: PauliX swaps amplitudes between every pair of
basis states differing only in bit `q` (spec section 4.2). -/
def xGateApp (n q : ℕ) (v : StateVec n) : StateVec n := fun i =>
  v (flipBit n q i)

/-- The index permutation of ControlledX: flip bit `t` exactly on the
basis states whose bit `c` is 1. -/
def cnotIndex (n c t : ℕ) (i : Fin (2 ^ n)) : Fin (2 ^ n) :=
  if i.val.testBit c then flipBit n t i else i

/-- Modelled from the spec: ControlledX swaps, for every basis state with
bit `c` = 1, the amplitude with the state obtained by flipping bit `t`;
states with bit `c` = 0 keep their amplitude (spec section 4.2). -/
def cxGateApp (n c t : ℕ) (v : StateVec n) : StateVec n := fun i =>
  v (cnotIndex n c t i)

/-- Modelled from the spec: dispatch of a tagged gate to its pure
transform (spec section 4.2). -/
def Gate.app (n : ℕ) : Gate → StateVec n → StateVec n
  | .hadamard q => hGateApp n q
  | .pauliX q => xGateApp n q
  | .controlledX c t => cxGateApp n c t

/-- The qubit indices a gate references. -/
def Gate.qubits : Gate → List ℕ
  | .hadamard q => [q]
  | .pauliX q => [q]
  | .controlledX c t => [c, t]

/-- Every referenced qubit index lies in `[0, n)`. -/
def Gate.inRange (n : ℕ) (g : Gate) : Bool :=
  g.qubits.all fun q => decide (q < n)

/-- A well-formed gate: referenced qubits in range and, for a controlled
gate, a control distinct from its target. -/
def Gate.valid (n : ℕ) : Gate → Prop
  | .hadamard q => q < n
  | .pauliX q => q < n
  | .controlledX c t => c < n ∧ t < n ∧ c ≠ t

/-- Modelled from the spec: `apply_gate(vector, gate)` fails with
`QubitIndexOutOfRange` when the gate references a qubit index outside
`[0, n)` (spec sections 4.2 and 6); missing from `src/`, which performs
no index checking. -/
def apply_gate (n : ℕ) (v : StateVec n) (g : Gate) : Except SimError (StateVec n) :=
  if Gate.inRange n g then .ok (Gate.app n g v) else .error .QubitIndexOutOfRange

/-- Modelled from the spec: sequential application of a circuit's gates
in circuit order (spec section 3, lifecycle). -/
def applySeq (n : ℕ) (gs : List Gate) (v : StateVec n) : StateVec n :=
  gs.foldl (fun s g => Gate.app n g s) v

/-- Total squared magnitude of an amplitude vector (all amplitudes of the
source's circuits are real, so the squared magnitude of `x` is `x * x`). -/
def normSq (n : ℕ) (v : StateVec n) : Qrt2 := ∑ i, v i * v i

/-- Modelled from the spec: the all-zero initial basis state, amplitude 1
at index 0 and 0 elsewhere (spec section 3). -/
def basisZero (n : ℕ) : StateVec n := fun i => if i.val = 0 then 1 else 0

/-- Modelled from the spec: `initialize_state`, here named `initState`:
a vector of length `2^n` with amplitude 1 at index 0, failing with
`InvalidQubitCount` for `n ≤ 0` (spec section 4.1); missing from `src/`,
which hard-codes `[1, 0, 0, 0]` and performs no check. -/
def initState (n : ℤ) : Except SimError (List Qrt2) :=
  if n ≤ 0 then .error .InvalidQubitCount
  else .ok (List.ofFn fun i : Fin (2 ^ n.toNat) => basisZero n.toNat i)

/-- The label of basis index `i`: the binary representation of `i`,
zero-padded to `n` digits (spec section 3). -/
def basisLabel (n i : ℕ) : String :=
  ⟨(List.range n).reverse.map fun j => if i.testBit j then '1' else '0'⟩

/-- Modelled from the spec: `extract_probabilities`, mapping each basis
label to the squared magnitude of its amplitude (spec section 4.3);
missing from `src/`, which delegates to qiskit `probabilities_dict`. -/
def extract_probabilities (n : ℕ) (v : StateVec n) : List (String × Qrt2) :=
  List.ofFn fun i : Fin (2 ^ n) => (basisLabel n i.val, v i * v i)

/-!
Faithful embedding of `src/QDS.py`.  Amplitude floats become `Qrt2`
values (exact for every value the script produces); a circuit is its
instruction list plus register sizes, and `simulate_quantum_circuit`
follows the source line by line: it dispatches on the *presence* of a
gate name in the instruction list (`any(...)`), not on order or counts.
The instruction names produced by qiskit are already lower case, so the
source's `.lower()` is the identity on every name occurring here.
-/

/-- A circuit instruction, as `generate_signature` emits them:
`qc.x(q)`, `qc.h(q)`, `qc.cx(c, t)`, `qc.measure(q, c)`. -/
inductive Instr where
  | x (q : ℕ)
  | h (q : ℕ)
  | cx (c t : ℕ)
  | measure (q c : ℕ)
  deriving DecidableEq

/-- The qiskit operation name of an instruction (already lower case). -/
def Instr.name : Instr → String
  | .x _ => "x"
  | .h _ => "h"
  | .cx _ _ => "cx"
  | .measure _ _ => "measure"

/-- A quantum circuit: `QuantumCircuit(numQubits, numClbits)` plus its
instruction data. -/
structure Circuit where
  numQubits : ℕ
  numClbits : ℕ
  data : List Instr
  deriving DecidableEq

/-- `any(inst.operation.name.lower() == s for inst in qc.data)`. -/
def hasGate (qc : Circuit) (s : String) : Bool :=
  qc.data.any fun i => i.name == s

/-- `np.kron` of two vectors: `kron u w = [u0*w0, u0*w1, ..., u1*w0, ...]`. -/
def kron (u w : List Qrt2) : List Qrt2 :=
  u.flatMap fun x => w.map fun y => x * y

/-- `state = np.array([1, 0, 0, 0])`: the 2-qubit state `|00>`. -/
def initialState2q : List Qrt2 := [1, 0, 0, 0]

/-- `np.array([1, 1]) / np.sqrt(2)`. -/
def hadamardVec : List Qrt2 := [Qrt2.invSqrt2, Qrt2.invSqrt2]

/-- QDS.py lines 14-15: if any instruction is named `x`, replace the
state by `[0, 1, 0, 0]`. -/
def simStepX (qc : Circuit) (state : List Qrt2) : List Qrt2 :=
  if hasGate qc "x" then [0, 1, 0, 0] else state

/-- QDS.py lines 18-20: if any instruction is named `h`, replace the
state by `np.kron(state[:2], hadamard)`. -/
def simStepH (qc : Circuit) (state : List Qrt2) : List Qrt2 :=
  if hasGate qc "h" then kron (state.take 2) hadamardVec else state

/-- QDS.py lines 23-27: if any instruction is named `cx` and
`state[1] == 1`, set `state[3] = state[2]` and `state[2] = 0`. -/
def simStepCX (qc : Circuit) (state : List Qrt2) : List Qrt2 :=
  if hasGate qc "cx" then
    if state.getD 1 0 = 1 then (state.set 3 (state.getD 2 0)).set 2 0 else state
  else state

/-- QDS.py lines 5-30: manual state-vector simulation of a 2-qubit
circuit, dispatching on which gate names are present. -/
def simulate_quantum_circuit (qc : Circuit) : List Qrt2 :=
  simStepCX qc (simStepH qc (simStepX qc initialState2q))

/-- QDS.py lines 33-55: build the signature circuit for a message,
rejecting anything but `"0"` and `"1"`. -/
def generate_signature (message : String) : Except String Circuit :=
  if ¬(message = "0" ∨ message = "1") then .error "Message must be 0 or 1."
  else
    .ok ⟨2, 1, (if message = "1" then [Instr.x 0] else []) ++
      [Instr.h 1, Instr.cx 0 1, Instr.measure 1 0]⟩

/-- QDS.py lines 58-72: simulate the circuit and report `"1"` exactly
when `state[3] == 1`. -/
def verify_signature (qc : Circuit) : String :=
  if (simulate_quantum_circuit qc).getD 3 0 = 1 then "1" else "0"

/-- Sum of squared magnitudes of a list state (the source states are
real-valued). -/
def listNormSq (l : List Qrt2) : Qrt2 := (l.map fun x => x * x).sum

/-!
The Outcome Sampler (spec sections 4.4 and 6).  The source samples with
`np.random.choice(list(probabilities.keys()), p=list(probabilities.values()))`
(QCTS.py line 33, QRNG.py line 29), an external collaborator; the spec
makes the randomness an explicit input.  We model the random source as a
number `r` with `0 ≤ r < 1` and select by inverse cumulative weight; the
float weights of the source are rationals.
-/

/-- Total weight of a probability map. -/
def totalWeight (m : List (String × ℚ)) : ℚ :=
  (m.map fun p => p.2).sum

/-- Walk the map, picking the first label whose weight bracket contains
the threshold; an exhausted map is degenerate. -/
def pickOutcome : List (String × ℚ) → ℚ → Except SimError String
  | [], _ => .error .DegenerateDistribution
  | p :: rest, x => if x < p.2 then .ok p.1 else pickOutcome rest (x - p.2)

/-- Modelled from the spec: `sample_outcome(probability_map, rng)` — one
basis label chosen with probability proportional to its weight, failing
with `DegenerateDistribution` on an empty or all-zero map (spec section
4.4); missing from `src/`, which calls `np.random.choice`. -/
def sample_outcome (m : List (String × ℚ)) (r : ℚ) : Except SimError String :=
  if m.isEmpty || m.all (fun p => p.2 == 0) then .error .DegenerateDistribution
  else pickOutcome m (r * totalWeight m)

/-!
Bit-flip index lemmas and norm preservation of the gate transforms.
-/

theorem flipBit_val {n q : ℕ} (hq : q < n) (i : Fin (2 ^ n)) :
    (flipBit n q i).val = i.val ^^^ 2 ^ q := by
  have hlt : i.val ^^^ 2 ^ q < 2 ^ n :=
    Nat.xor_lt_two_pow i.isLt (Nat.pow_lt_pow_right one_lt_two hq)
  simp [flipBit, Nat.mod_eq_of_lt hlt]

theorem flipBit_flipBit {n q : ℕ} (hq : q < n) (i : Fin (2 ^ n)) :
    flipBit n q (flipBit n q i) = i := by
  apply Fin.ext
  rw [flipBit_val hq, flipBit_val hq, Nat.xor_assoc, Nat.xor_self, Nat.xor_zero]

theorem testBit_flipBit_self {n q : ℕ} (hq : q < n) (i : Fin (2 ^ n)) :
    (flipBit n q i).val.testBit q = !i.val.testBit q := by
  rw [flipBit_val hq, Nat.testBit_xor, Nat.testBit_two_pow]
  simp

theorem testBit_flipBit_ne {n q j : ℕ} (hq : q < n) (hj : j ≠ q) (i : Fin (2 ^ n)) :
    (flipBit n q i).val.testBit j = i.val.testBit j := by
  rw [flipBit_val hq, Nat.testBit_xor, Nat.testBit_two_pow]
  simp [Ne.symm hj]

theorem flipBit_involutive {n q : ℕ} (hq : q < n) :
    Function.Involutive (flipBit n q) := fun i => flipBit_flipBit hq i

theorem sum_comp_flipBit {n q : ℕ} (hq : q < n) (f : Fin (2 ^ n) → Qrt2) :
    ∑ i, f (flipBit n q i) = ∑ i, f i :=
  Equiv.sum_comp ((flipBit_involutive hq).toPerm) f

theorem cnotIndex_involutive {n c t : ℕ} (ht : t < n) (hct : c ≠ t) :
    Function.Involutive (cnotIndex n c t) := by
  intro i
  unfold cnotIndex
  by_cases hc : i.val.testBit c
  · rw [if_pos hc, if_pos, flipBit_flipBit ht]
    rw [testBit_flipBit_ne ht hct]
    exact hc
  · rw [if_neg hc, if_neg hc]

theorem sum_comp_cnotIndex {n c t : ℕ} (ht : t < n) (hct : c ≠ t)
    (f : Fin (2 ^ n) → Qrt2) :
    ∑ i, f (cnotIndex n c t i) = ∑ i, f i :=
  Equiv.sum_comp ((cnotIndex_involutive ht hct).toPerm) f

theorem normSq_xGateApp {n q : ℕ} (hq : q < n) (v : StateVec n) :
    normSq n (xGateApp n q v) = normSq n v :=
  sum_comp_flipBit hq fun j => v j * v j

theorem normSq_cxGateApp {n c t : ℕ} (ht : t < n) (hct : c ≠ t) (v : StateVec n) :
    normSq n (cxGateApp n c t v) = normSq n v :=
  sum_comp_cnotIndex ht hct fun j => v j * v j

theorem normSq_hGateApp {n q : ℕ} (hq : q < n) (v : StateVec n) :
    normSq n (hGateApp n q v) = normSq n v := by
  set w := hGateApp n q v with hw
  have key : ∀ i, w i * w i + w (flipBit n q i) * w (flipBit n q i)
      = v i * v i + v (flipBit n q i) * v (flipBit n q i) := by
    intro i
    by_cases hb : i.val.testBit q
    · have hb2 : (flipBit n q i).val.testBit q = false := by
        rw [testBit_flipBit_self hq, hb]; rfl
      have e1 : w i = (v (flipBit n q i) - v i) * Qrt2.invSqrt2 := by
        rw [hw]; unfold hGateApp; rw [if_pos hb]
      have e2 : w (flipBit n q i) = (v (flipBit n q i) + v i) * Qrt2.invSqrt2 := by
        rw [hw]; unfold hGateApp
        rw [if_neg (by simp [hb2])]
        rw [flipBit_flipBit hq]
      rw [e1, e2]
      have hpair := Qrt2.hadamard_pair_identity (v (flipBit n q i)) (v i)
      calc (v (flipBit n q i) - v i) * Qrt2.invSqrt2 * ((v (flipBit n q i) - v i) * Qrt2.invSqrt2)
            + (v (flipBit n q i) + v i) * Qrt2.invSqrt2 * ((v (flipBit n q i) + v i) * Qrt2.invSqrt2)
          = (v (flipBit n q i) + v i) * Qrt2.invSqrt2 * ((v (flipBit n q i) + v i) * Qrt2.invSqrt2)
            + (v (flipBit n q i) - v i) * Qrt2.invSqrt2 * ((v (flipBit n q i) - v i) * Qrt2.invSqrt2) := by ring
        _ = v (flipBit n q i) * v (flipBit n q i) + v i * v i := hpair
        _ = v i * v i + v (flipBit n q i) * v (flipBit n q i) := by ring
    · have hb' : i.val.testBit q = false := by simpa using hb
      have hb2 : (flipBit n q i).val.testBit q = true := by
        rw [testBit_flipBit_self hq, hb']; rfl
      have e1 : w i = (v i + v (flipBit n q i)) * Qrt2.invSqrt2 := by
        rw [hw]; unfold hGateApp; rw [if_neg (by simp [hb'])]
      have e2 : w (flipBit n q i) = (v i - v (flipBit n q i)) * Qrt2.invSqrt2 := by
        rw [hw]; unfold hGateApp
        rw [if_pos hb2, flipBit_flipBit hq]
      rw [e1, e2]
      exact Qrt2.hadamard_pair_identity (v i) (v (flipBit n q i))
  have hdouble : normSq n w + normSq n w = normSq n v + normSq n v := by
    have h1 : normSq n w + normSq n w
        = ∑ i, (w i * w i + w (flipBit n q i) * w (flipBit n q i)) := by
      rw [Finset.sum_add_distrib]
      unfold normSq
      rw [sum_comp_flipBit hq fun j => w j * w j]
    have h2 : normSq n v + normSq n v
        = ∑ i, (v i * v i + v (flipBit n q i) * v (flipBit n q i)) := by
      rw [Finset.sum_add_distrib]
      unfold normSq
      rw [sum_comp_flipBit hq fun j => v j * v j]
    rw [h1, h2]
    exact Finset.sum_congr rfl fun i _ => key i
  exact Qrt2.add_self_inj hdouble

theorem normSq_gateApp {n : ℕ} {g : Gate} (hg : Gate.valid n g) (v : StateVec n) :
    normSq n (Gate.app n g v) = normSq n v := by
  cases g with
  | hadamard q => exact normSq_hGateApp hg v
  | pauliX q => exact normSq_xGateApp hg v
  | controlledX c t => exact normSq_cxGateApp hg.2.1 hg.2.2 v

theorem normSq_applySeq {n : ℕ} (gs : List Gate) (hgs : ∀ g ∈ gs, Gate.valid n g)
    (v : StateVec n) : normSq n (applySeq n gs v) = normSq n v := by
  induction gs generalizing v with
  | nil => rfl
  | cons g rest ih =>
    have hg : Gate.valid n g := hgs g (List.mem_cons_self g rest)
    have hrest : ∀ g₀ ∈ rest, Gate.valid n g₀ := fun g₀ h₀ => hgs g₀ (List.mem_cons_of_mem g h₀)
    calc normSq n (applySeq n (g :: rest) v)
        = normSq n (applySeq n rest (Gate.app n g v)) := rfl
      _ = normSq n (Gate.app n g v) := ih hrest (Gate.app n g v)
      _ = normSq n v := normSq_gateApp hg v

/-!
Normalization along the source's own simulation (QDS.py): each of the
three conditional steps leaves a unit-norm state, in every one of the
eight gate-presence cases.
-/

theorem listNormSq_four (p q r s : Qrt2) :
    listNormSq [p, q, r, s] = p * p + (q * q + (r * r + s * s)) := by
  simp [listNormSq]

theorem invSqrt2_ne_one : Qrt2.invSqrt2 ≠ 1 := by
  simp [Qrt2.invSqrt2, Qrt2.ext_iff]

theorem zero_ne_one_qrt2 : (0 : Qrt2) ≠ 1 := by
  simp [Qrt2.ext_iff]

theorem sim_intermediates_normalized (qc : Circuit) :
    listNormSq (simStepX qc initialState2q) = 1 ∧
    listNormSq (simStepH qc (simStepX qc initialState2q)) = 1 ∧
    listNormSq (simulate_quantum_circuit qc) = 1 := by
  have hs : Qrt2.invSqrt2 * Qrt2.invSqrt2 + Qrt2.invSqrt2 * Qrt2.invSqrt2 = 1 :=
    Qrt2.invSqrt2_sq_add_sq
  unfold simulate_quantum_circuit simStepX simStepH simStepCX
  cases hx : hasGate qc "x" <;> cases hh : hasGate qc "h" <;>
    cases hcx : hasGate qc "cx" <;>
    simp [initialState2q, kron, hadamardVec, listNormSq, invSqrt2_ne_one,
      zero_ne_one_qrt2] <;>
    (try (exact hs))

/-!
Sampler lemmas.
-/

theorem pickOutcome_mem (m : List (String × ℚ)) :
    ∀ x : ℚ, 0 ≤ x → x < totalWeight m →
      ∃ lab, pickOutcome m x = .ok lab ∧ lab ∈ m.map Prod.fst := by
  induction m with
  | nil =>
    intro x h0 hlt
    simp [totalWeight] at hlt
    linarith
  | cons p rest ih =>
    intro x h0 hlt
    by_cases hx : x < p.2
    · exact ⟨p.1, by simp [pickOutcome, hx], by simp⟩
    · push_neg at hx
      have h0' : 0 ≤ x - p.2 := by linarith
      have hlt' : x - p.2 < totalWeight rest := by
        simp [totalWeight] at hlt ⊢
        linarith
      obtain ⟨lab, hpick, hmem⟩ := ih (x - p.2) h0' hlt'
      refine ⟨lab, ?_, by simp [hmem]⟩
      simp [pickOutcome, not_lt.mpr hx, hpick]

theorem all_zero_total (m : List (String × ℚ)) (h : ∀ p ∈ m, p.2 = 0) :
    totalWeight m = 0 := by
  unfold totalWeight
  apply List.sum_eq_zero
  intro x hx
  rw [List.mem_map] at hx
  obtain ⟨p, hp, hpx⟩ := hx
  rw [← hpx]
  exact h p hp

/-- `normSq` of the one-qubit all-zero state. -/
theorem normSq_basisZero_one : normSq 1 (basisZero 1) = 1 := by
  show (∑ i : Fin 2, basisZero 1 i * basisZero 1 i) = 1
  rw [Fin.sum_univ_two]
  simp [basisZero]

/-!
The claims.
-/

/-- C1: every valid gate in Hadamard, PauliX, ControlledX maps a vector
of total squared magnitude 1 to a vector of total squared magnitude 1
(exactly, hence within tolerance 1e-9); the invariant persists through a
whole gate sequence, and it also holds after each of the three gate steps
of the source's own `simulate_quantum_circuit`. -/
theorem normalization_invariant :
    (∀ (n : ℕ) (g : Gate) (v : StateVec n), Gate.valid n g → normSq n v = 1 →
      normSq n (Gate.app n g v) = 1) ∧
    (∀ (n : ℕ) (gs : List Gate) (v : StateVec n), (∀ g ∈ gs, Gate.valid n g) →
      normSq n v = 1 → normSq n (applySeq n gs v) = 1) ∧
    ∀ qc : Circuit,
      listNormSq (simStepX qc initialState2q) = 1 ∧
      listNormSq (simStepH qc (simStepX qc initialState2q)) = 1 ∧
      listNormSq (simulate_quantum_circuit qc) = 1 := by
  refine ⟨?_, ?_, sim_intermediates_normalized⟩
  · intro n g v hg hv
    rw [normSq_gateApp hg v, hv]
  · intro n gs v hgs hv
    rw [normSq_applySeq gs hgs v, hv]

/-- Witness for C1 at `n = 1`, Hadamard on qubit 0, state `|0>`. -/
theorem normalization_invariant_witness :
    Gate.valid 1 (Gate.hadamard 0) ∧ normSq 1 (basisZero 1) = 1 ∧
    normSq 1 (Gate.app 1 (Gate.hadamard 0) (basisZero 1)) = 1 :=
  ⟨Nat.zero_lt_one, normSq_basisZero_one,
   normalization_invariant.1 1 (Gate.hadamard 0) (basisZero 1)
     Nat.zero_lt_one normSq_basisZero_one⟩

/-- C2: for any qubit position `q < n` and any pair of basis states that
differ exactly in bit `q`, Hadamard(q) sends the bit-`q`=0 state to
`(a0 + a1)/√2` and the bit-`q`=1 state to `(a0 − a1)/√2`, where `a0`,
`a1` are the pair's old amplitudes. -/
theorem hadamard_pairwise_action (n q : ℕ) (hq : q < n) (v : StateVec n)
    (s0 s1 : Fin (2 ^ n)) (h0 : s0.val.testBit q = false)
    (h1 : s1.val.testBit q = true)
    (hdiff : ∀ j, j ≠ q → s1.val.testBit j = s0.val.testBit j) :
    Gate.app n (Gate.hadamard q) v s0 = (v s0 + v s1) * Qrt2.invSqrt2 ∧
    Gate.app n (Gate.hadamard q) v s1 = (v s0 - v s1) * Qrt2.invSqrt2 := by
  have hflip : flipBit n q s0 = s1 := by
    apply Fin.ext
    rw [flipBit_val hq]
    apply Nat.eq_of_testBit_eq
    intro j
    rw [Nat.testBit_xor, Nat.testBit_two_pow]
    by_cases hj : j = q
    · subst hj
      rw [h0, h1]
      simp
    · rw [← hdiff j hj]
      have hne : q ≠ j := fun habs => hj habs.symm
      simp [hne]
  have hflip2 : flipBit n q s1 = s0 := by rw [← hflip, flipBit_flipBit hq]
  constructor
  · show hGateApp n q v s0 = _
    unfold hGateApp
    rw [if_neg (by simp [h0]), hflip]
  · show hGateApp n q v s1 = _
    unfold hGateApp
    rw [if_pos h1, hflip2]

/-- Witness for C2 at `n = 1`, `q = 0`, the pair `|0>`, `|1>`. -/
theorem hadamard_pairwise_action_witness :
    Gate.app 1 (Gate.hadamard 0) (basisZero 1) 0 =
      (basisZero 1 0 + basisZero 1 1) * Qrt2.invSqrt2 ∧
    Gate.app 1 (Gate.hadamard 0) (basisZero 1) 1 =
      (basisZero 1 0 - basisZero 1 1) * Qrt2.invSqrt2 :=
  hadamard_pairwise_action 1 0 (by decide) (basisZero 1) 0 1 (by decide) (by decide)
    (fun j hj => by
      cases j with
      | zero => exact absurd rfl hj
      | succ k => simp [Nat.testBit_succ])

/-- C3: ControlledX(c, t) with distinct in-range control and target swaps
the amplitudes of every pair of basis states that differ exactly in bit
`t` and have bit `c` = 1, and leaves every basis state with bit `c` = 0
unchanged. -/
theorem controlledX_swap_action (n c t : ℕ) (hc : c < n) (ht : t < n)
    (hct : c ≠ t) (v : StateVec n) :
    (∀ s1 s2 : Fin (2 ^ n), s1.val.testBit c = true →
        s2.val.testBit t = !s1.val.testBit t →
        (∀ j, j ≠ t → s2.val.testBit j = s1.val.testBit j) →
        Gate.app n (Gate.controlledX c t) v s1 = v s2 ∧
        Gate.app n (Gate.controlledX c t) v s2 = v s1) ∧
    ∀ s : Fin (2 ^ n), s.val.testBit c = false →
      Gate.app n (Gate.controlledX c t) v s = v s := by
  constructor
  · intro s1 s2 hc1 hflipt hdiff
    have hflip : flipBit n t s1 = s2 := by
      apply Fin.ext
      rw [flipBit_val ht]
      apply Nat.eq_of_testBit_eq
      intro j
      rw [Nat.testBit_xor, Nat.testBit_two_pow]
      by_cases hj : j = t
      · subst hj
        rw [hflipt]
        simp [Bool.xor_true]
      · rw [← hdiff j hj]
        have hne : t ≠ j := fun habs => hj habs.symm
        simp [hne]
    have hflip2 : flipBit n t s2 = s1 := by rw [← hflip, flipBit_flipBit ht]
    have hc2 : s2.val.testBit c = true := by
      rw [hdiff c (Ne.symm (fun habs => hct habs.symm))]
      exact hc1
    constructor
    · show cxGateApp n c t v s1 = v s2
      unfold cxGateApp cnotIndex
      rw [if_pos hc1, hflip]
    · show cxGateApp n c t v s2 = v s1
      unfold cxGateApp cnotIndex
      rw [if_pos hc2, hflip2]
  · intro s hs
    show cxGateApp n c t v s = v s
    unfold cxGateApp cnotIndex
    rw [if_neg (by simp [hs])]

/-- Witness for C3 at `n = 2`, control 0, target 1, the pair `|01>`,
`|11>` (indices 1 and 3), and unchanged `|00>`. -/
theorem controlledX_swap_action_witness :
    (Gate.app 2 (Gate.controlledX 0 1) (basisZero 2) 1 = basisZero 2 3 ∧
      Gate.app 2 (Gate.controlledX 0 1) (basisZero 2) 3 = basisZero 2 1) ∧
    Gate.app 2 (Gate.controlledX 0 1) (basisZero 2) 0 = basisZero 2 0 :=
  have h := controlledX_swap_action 2 0 1 (by decide) (by decide) (by decide) (basisZero 2)
  ⟨h.1 1 3 (by decide) (by decide)
    (fun j hj => by
      match j with
      | 0 => decide
      | 1 => exact absurd rfl hj
      | (k+2) =>
        rw [Nat.testBit_lt_two_pow, Nat.testBit_lt_two_pow]
        · calc (1:Fin (2^2)).val < 2^2 := (1:Fin (2^2)).isLt
            _ ≤ 2^(k+2) := Nat.pow_le_pow_right (by norm_num) (by omega)
        · calc (3:Fin (2^2)).val < 2^2 := (3:Fin (2^2)).isLt
            _ ≤ 2^(k+2) := Nat.pow_le_pow_right (by norm_num) (by omega)),
   h.2 0 (by decide)⟩

/-- C4: for both valid messages, the circuit built by
`generate_signature` makes `verify_signature` answer `"0"`: the check
`state[3] == 1` never holds, since the amplitude at index 3 is `0` or
`1/√2`, never `1`.  Decided against the source embedding of QDS.py. -/
theorem signature_verification_always_rejects (m : String)
    (hm : m = "0" ∨ m = "1") :
    ∃ qc, generate_signature m = .ok qc ∧ verify_signature qc = "0" := by
  rcases hm with h | h <;> subst h
  · refine ⟨⟨2, 1, [Instr.h 1, Instr.cx 0 1, Instr.measure 1 0]⟩, rfl, ?_⟩
    unfold verify_signature simulate_quantum_circuit simStepX simStepH simStepCX
    rw [show hasGate ⟨2, 1, [Instr.h 1, Instr.cx 0 1, Instr.measure 1 0]⟩ "x" = false from rfl]
    rw [show hasGate ⟨2, 1, [Instr.h 1, Instr.cx 0 1, Instr.measure 1 0]⟩ "h" = true from rfl]
    rw [show hasGate ⟨2, 1, [Instr.h 1, Instr.cx 0 1, Instr.measure 1 0]⟩ "cx" = true from rfl]
    simp [initialState2q, kron, hadamardVec, invSqrt2_ne_one, zero_ne_one_qrt2]
  · refine ⟨⟨2, 1, [Instr.x 0, Instr.h 1, Instr.cx 0 1, Instr.measure 1 0]⟩, rfl, ?_⟩
    unfold verify_signature simulate_quantum_circuit simStepX simStepH simStepCX
    rw [show hasGate ⟨2, 1, [Instr.x 0, Instr.h 1, Instr.cx 0 1, Instr.measure 1 0]⟩ "x" = true from rfl]
    rw [show hasGate ⟨2, 1, [Instr.x 0, Instr.h 1, Instr.cx 0 1, Instr.measure 1 0]⟩ "h" = true from rfl]
    rw [show hasGate ⟨2, 1, [Instr.x 0, Instr.h 1, Instr.cx 0 1, Instr.measure 1 0]⟩ "cx" = true from rfl]
    simp [initialState2q, kron, hadamardVec, invSqrt2_ne_one, zero_ne_one_qrt2]

/-- Witness for C4 at the message `"1"`. -/
theorem signature_verification_always_rejects_witness :
    ∃ qc, generate_signature "1" = .ok qc ∧ verify_signature qc = "0" :=
  signature_verification_always_rejects "1" (Or.inr rfl)

/-- C5: PauliX on any in-range qubit applied twice is the identity on
every amplitude vector. -/
theorem pauliX_twice_identity (n q : ℕ) (hq : q < n) (v : StateVec n) :
    Gate.app n (Gate.pauliX q) (Gate.app n (Gate.pauliX q) v) = v := by
  funext i
  show v (flipBit n q (flipBit n q i)) = v i
  rw [flipBit_flipBit hq]

/-- Witness for C5 at `n = 1`, `q = 0`, state `|0>`. -/
theorem pauliX_twice_identity_witness :
    Gate.app 1 (Gate.pauliX 0) (Gate.app 1 (Gate.pauliX 0) (basisZero 1)) =
      basisZero 1 :=
  pauliX_twice_identity 1 0 (by decide) (basisZero 1)

/-- C6: gate sequences are order-sensitive: the two orders of the same
two-gate multiset (PauliX 0 and Hadamard 0) applied to `|0>` produce
different amplitude vectors. -/
theorem gate_order_sensitivity :
    List.Perm [Gate.pauliX 0, Gate.hadamard 0] [Gate.hadamard 0, Gate.pauliX 0] ∧
    applySeq 1 [Gate.pauliX 0, Gate.hadamard 0] (basisZero 1) ≠
      applySeq 1 [Gate.hadamard 0, Gate.pauliX 0] (basisZero 1) := by
  constructor
  · exact List.Perm.swap _ _ _
  · intro h
    have h1 := congrFun h 1
    simp [applySeq, Gate.app, hGateApp, xGateApp, basisZero, flipBit] at h1
    have hb := congrArg Qrt2.b h1
    simp [Qrt2.invSqrt2] at hb
    norm_num at hb

/-- C7: `initState n` succeeds for every `n ≥ 1` with a vector of length
`2^n` whose entry is 1 at index 0 and 0 everywhere else, and fails with
`InvalidQubitCount` for every `n ≤ 0`. -/
theorem initState_ok_and_error :
    (∀ n : ℤ, 1 ≤ n → ∃ v, initState n = .ok v ∧
      v.length = 2 ^ n.toNat ∧
      ∀ i (h : i < v.length), v.get ⟨i, h⟩ = if i = 0 then 1 else 0) ∧
    ∀ n : ℤ, n ≤ 0 → initState n = .error .InvalidQubitCount := by
  constructor
  · intro n hn
    rw [initState, if_neg (by omega)]
    refine ⟨_, rfl, by simp, ?_⟩
    intro i h
    simp only [List.get_ofFn, basisZero]
    simp
  · intro n hn
    rw [initState, if_pos hn]

/-- Witness for C7 at `n = 1` and `n = -1`. -/
theorem initState_ok_and_error_witness :
    ((1:ℤ) ≤ 1 ∧ ∃ v, initState 1 = .ok v ∧
      v.length = 2 ^ (1:ℤ).toNat ∧
      ∀ i (h : i < v.length), v.get ⟨i, h⟩ = if i = 0 then 1 else 0) ∧
    initState (-1) = .error .InvalidQubitCount :=
  ⟨⟨le_refl 1, initState_ok_and_error.1 1 (le_refl 1)⟩,
   initState_ok_and_error.2 (-1) (by norm_num)⟩

/-- C8: `apply_gate` on a gate referencing a qubit index `q ≥ n` answers
`QubitIndexOutOfRange`; as a pure function it returns only this error, so
the input vector is left untouched. -/
theorem apply_gate_out_of_range_error (n : ℕ) (v : StateVec n) (g : Gate)
    (q : ℕ) (hqg : q ∈ g.qubits) (hq : n ≤ q) :
    apply_gate n v g = .error .QubitIndexOutOfRange := by
  unfold apply_gate
  rw [if_neg]
  intro hall
  have hdec := List.all_eq_true.mp hall q hqg
  have : q < n := of_decide_eq_true hdec
  omega

/-- Witness for C8: Hadamard on qubit 3 against a 1-qubit vector. -/
theorem apply_gate_out_of_range_error_witness :
    apply_gate 1 (basisZero 1) (Gate.hadamard 3) = .error .QubitIndexOutOfRange :=
  apply_gate_out_of_range_error 1 (basisZero 1) (Gate.hadamard 3) 3 (by decide) (by decide)

/-- C9: the sampler fails with `DegenerateDistribution` on an empty map
and on an all-zero map, and on any map of positive total weight (with the
random draw `r` in `[0, 1)`) it returns a label of the map. -/
theorem sample_outcome_degenerate_and_success :
    (∀ (m : List (String × ℚ)) (r : ℚ), (m = [] ∨ ∀ p ∈ m, p.2 = 0) →
      sample_outcome m r = .error .DegenerateDistribution) ∧
    ∀ (m : List (String × ℚ)) (r : ℚ), 0 ≤ r → r < 1 → 0 < totalWeight m →
      ∃ lab, sample_outcome m r = .ok lab ∧ lab ∈ m.map Prod.fst := by
  constructor
  · intro m r hm
    rcases hm with h | h
    · subst h
      rfl
    · have hall : (m.all fun p => p.2 == 0) = true :=
        List.all_eq_true.mpr fun p hp => beq_iff_eq.mpr (h p hp)
      unfold sample_outcome
      rw [hall, Bool.or_true]
      rfl
  · intro m r h0 h1 htot
    have hne : m.isEmpty = false := by
      cases m with
      | nil => simp [totalWeight] at htot
      | cons p rest => rfl
    have hnz : (m.all fun p => p.2 == 0) = false := by
      apply Bool.eq_false_iff.mpr
      intro hall
      have hz : ∀ p ∈ m, p.2 = 0 := fun p hp =>
        beq_iff_eq.mp (List.all_eq_true.mp hall p hp)
      rw [all_zero_total m hz] at htot
      exact lt_irrefl 0 htot
    have hx0 : 0 ≤ r * totalWeight m := mul_nonneg h0 (le_of_lt htot)
    have hxlt : r * totalWeight m < totalWeight m := by
      have hstep := mul_lt_mul_of_pos_right h1 htot
      rwa [one_mul] at hstep
    unfold sample_outcome
    rw [hne, hnz]
    exact pickOutcome_mem m (r * totalWeight m) hx0 hxlt

/-- Witness for C9: the empty map errors; the fair coin map with draw 0
returns a label of the map. -/
theorem sample_outcome_degenerate_and_success_witness :
    sample_outcome [] 0 = .error .DegenerateDistribution ∧
    ∃ lab, sample_outcome [("0", 1/2), ("1", 1/2)] 0 = .ok lab ∧
      lab ∈ ([("0", (1:ℚ)/2), ("1", 1/2)]).map Prod.fst :=
  ⟨sample_outcome_degenerate_and_success.1 [] 0 (Or.inl rfl),
   sample_outcome_degenerate_and_success.2 [("0", 1/2), ("1", 1/2)] 0 le_rfl
     (by norm_num) (by norm_num [totalWeight])⟩

/-- C10: the coin-toss scenario: Hadamard(0) on the 1-qubit all-zero
state yields the probability map assigning exactly 1/2 to "0" and 1/2 to
"1" (exact, hence within tolerance 1e-9). -/
theorem coin_toss_probability_map :
    extract_probabilities 1 (Gate.app 1 (Gate.hadamard 0) (basisZero 1)) =
      [("0", ⟨1/2, 0⟩), ("1", ⟨1/2, 0⟩)] := by
  have h0 : Gate.app 1 (Gate.hadamard 0) (basisZero 1) 0 = Qrt2.invSqrt2 := by
    show hGateApp 1 0 (basisZero 1) 0 = _
    unfold hGateApp
    rw [if_neg (by decide)]
    simp [basisZero, flipBit]
  have h1 : Gate.app 1 (Gate.hadamard 0) (basisZero 1) 1 = Qrt2.invSqrt2 := by
    show hGateApp 1 0 (basisZero 1) 1 = _
    unfold hGateApp
    rw [if_pos (by decide)]
    simp [basisZero, flipBit]
  have hsq : Qrt2.invSqrt2 * Qrt2.invSqrt2 = ⟨1/2, 0⟩ := by
    ext <;> simp [Qrt2.invSqrt2]
  show List.ofFn (fun i : Fin (2^1) => (basisLabel 1 i.val,
    Gate.app 1 (Gate.hadamard 0) (basisZero 1) i *
      Gate.app 1 (Gate.hadamard 0) (basisZero 1) i)) = _
  rw [show (List.ofFn (fun i : Fin (2^1) => (basisLabel 1 i.val,
      Gate.app 1 (Gate.hadamard 0) (basisZero 1) i *
        Gate.app 1 (Gate.hadamard 0) (basisZero 1) i)))
      = [(basisLabel 1 (0:Fin (2^1)).val,
          Gate.app 1 (Gate.hadamard 0) (basisZero 1) 0 *
            Gate.app 1 (Gate.hadamard 0) (basisZero 1) 0),
         (basisLabel 1 (1:Fin (2^1)).val,
          Gate.app 1 (Gate.hadamard 0) (basisZero 1) 1 *
            Gate.app 1 (Gate.hadamard 0) (basisZero 1) 1)]
      from List.ofFn_succ _ ▸ rfl]
  rw [h0, h1, hsq]
  rfl
